import Mathlib

/-! Verification of the docker-debian-management release tooling.

This file shallowly embeds the three Python scripts of the repository:
the Dockerfile date rewriter and git commit-and-tag procedure of
update_images_to_new_release.py, the latest-tag resolvers and the docker
build/push orchestration of docker_build_from_latest_tag.py and
docker_build_from_latest_github_tag.py.  External effects (git pushes,
docker subprocess calls, network lookups) are modelled by explicit
outcome parameters and by traces of the operations attempted. -/

/-! ## The Dockerfile date rewriter (update_fa_repos, update_images_to_new_release.py)

The Python code runs two scan-and-replace loops over the file content:
one for the regex pattern of eight consecutive digits, one for the
ISO-date pattern.  Each loop repeatedly finds the leftmost match in the
suffix starting at the running offset, splices the replacement in, and
moves the offset just past the match. -/

/-- Classification of a character as seen by the two date regexes:
0 for a decimal digit, 1 for the hyphen, 2 for anything else. -/
def charClass (c : Char) : Nat :=
  if c.isDigit then 0 else if c = '-' then 1 else 2

/-- A run of exactly `n` decimal digits starts at position `s` of `xs`
(the segment exists in full and consists of digits only). -/
def digitsSeg (xs : List Char) (s n : Nat) : Bool :=
  decide (((xs.drop s).take n).length = n) && ((xs.drop s).take n).all Char.isDigit

/-- The character at position `i` of `xs` is a hyphen. -/
def hyphenAt (xs : List Char) (i : Nat) : Bool :=
  decide (xs.get? i = some '-')

/-- The pattern of eight consecutive digits matches at the start of `xs`. -/
def digits8At (xs : List Char) : Bool := digitsSeg xs 0 8

/-- The ISO date pattern (four digits, hyphen, two digits, hyphen, two
digits) matches at the start of `xs`. -/
def isoAt (xs : List Char) : Bool :=
  digitsSeg xs 0 4 && hyphenAt xs 4 && digitsSeg xs 5 2 && hyphenAt xs 7 && digitsSeg xs 8 2

/-- Leftmost-match search: the smallest position of `xs` at which `test`
matches, as used by re.search. -/
def scanFind (test : List Char → Bool) : List Char → Option Nat
  | [] => none
  | x :: xs => if test (x :: xs) then some 0 else (scanFind test xs).map (· + 1)

/-- One scan-and-replace loop of the Python rewriter.  `find` returns the
leftmost match position in the suffix after `off`; the match (of length
`mlen`) is replaced by `repl` and the offset moves just past it.  The
Python loop runs until no match remains; `fuel` bounds the number of
iterations and is chosen large enough in `rewriteRecipe`. -/
def scanPass (find : List Char → Option Nat) (mlen : Nat) (repl : List Char) :
    Nat → List Char → Nat → List Char
  | 0, content, _ => content
  | fuel + 1, content, off =>
    match find (content.drop off) with
    | none => content
    | some s =>
      scanPass find mlen repl fuel
        (content.take (off + s) ++ repl ++ content.drop (off + s + mlen))
        (off + s + mlen)

/-- The ISO form of the compact tag date, built by slicing at fixed
offsets exactly as the Python f-string does. -/
def tagDateToIso (tagDate : List Char) : List Char :=
  tagDate.take 4 ++ '-' :: ((tagDate.drop 4).take 2 ++ '-' :: (tagDate.drop 6).take 2)

/-- The full Dockerfile rewrite of update_fa_repos: first the
eight-digit pass replacing each match with `tagDate`, then the ISO pass
over the already rewritten text replacing each match with the ISO form. -/
def rewriteRecipe (content tagDate : List Char) : List Char :=
  let c1 := scanPass (scanFind digits8At) 8 tagDate (content.length + 1) content 0
  scanPass (scanFind isoAt) 10 (tagDateToIso tagDate) (c1.length + 1) c1 0

/-- The class string of an ISO date token. -/
def isoClassPattern : List Nat := [0, 0, 0, 0, 1, 0, 0, 1, 0, 0]

/-! ## The latest-tag resolvers (get_latest_tag / get_latest_local_tag)

Both resolvers enumerate the tags of a repository and pick the one whose
commit has the maximal timestamp using max with a key function.  The tag
list and the commit dates are inputs here; the network and the local
object store are outside the model. -/

/-- A tag together with the timestamp of the commit it references. -/
structure RepoTag where
  name : String
  commitDate : Nat
deriving DecidableEq

/-- The accumulator loop of the builtin max with a key function: the
current best is replaced only when a strictly larger key appears, so the
first maximal element wins. -/
def pyMaxAux {α : Type} (key : α → Nat) : α → List α → α
  | best, [] => best
  | best, x :: xs => pyMaxAux key (if key x > key best then x else best) xs

/-- max(iterable, key=...): none on an empty list, otherwise the first
element attaining the maximal key. -/
def pyMax {α : Type} (key : α → Nat) : List α → Option α
  | [] => none
  | x :: xs => some (pyMaxAux key x xs)

/-- get_latest_tag / get_latest_github_tag: none when the repository
lookup failed or it has no tags, otherwise the name of the tag with the
latest commit date. -/
def getLatestTag (repoFound : Bool) (tags : List RepoTag) : Option String :=
  if !repoFound then none
  else if tags.length = 0 then none
  else (pyMax (fun t => t.commitDate) tags).map (fun t => t.name)

/-- get_latest_local_tag: none when the working copy has no tags,
otherwise the tag with the latest commit date. -/
def getLatestLocalTag (tags : List RepoTag) : Option RepoTag :=
  if tags.length = 0 then none
  else pyMax (fun t => t.commitDate) tags

/-! ## Docker build and push orchestration (docker_build_from_latest_tag.py)

The docker subprocess outcomes are inputs (`buildOk`, `PushEnv`); the
model returns the overall outcome together with the trace of docker
operations attempted.  Python assertion failures are `Except.error`. -/

/-- A docker operation attempted by push_image_to_dockerhub. -/
inductive DockerAct where
  | login (user : String)
  | push (tag : String)
  | tagCmd (src dst : String)
deriving DecidableEq

/-- Outcomes of the four docker subprocess calls made while pushing. -/
structure PushEnv where
  loginOk : Bool
  pushOk : Bool
  tagOk : Bool
  pushLatestOk : Bool

/-- str.find: position of the first occurrence of `c`, none when absent. -/
def firstIdx : List Char → Char → Option Nat
  | [], _ => none
  | x :: xs, c => if x = c then some 0 else (firstIdx xs c).map (· + 1)

/-- push_image_to_dockerhub: log in with the account in front of the
first slash, push the tag, re-tag as latest and push that.  The result
is the success flag and the trace of attempted docker operations; the
two asserts on the tag shape are modelled as errors. -/
def pushImageToDockerhub (env : PushEnv) (accessToken tag : String) :
    Except Unit (Bool × List DockerAct) :=
  match firstIdx tag.data '/' with
  | none => Except.error ()
  | some uEnd =>
    let username := String.mk (tag.data.take uEnd)
    if !env.loginOk then Except.ok (false, [DockerAct.login username])
    else if !env.pushOk then Except.ok (false, [DockerAct.login username, DockerAct.push tag])
    else
      match firstIdx tag.data ':' with
      | none => Except.error ()
      | some iEnd =>
        let imageName := String.mk ((tag.data.take iEnd).drop (uEnd + 1))
        let latestTag := username ++ "/" ++ imageName ++ ":latest"
        if !env.tagOk then
          Except.ok (false,
            [DockerAct.login username, DockerAct.push tag, DockerAct.tagCmd tag latestTag])
        else if !env.pushLatestOk then
          Except.ok (false,
            [DockerAct.login username, DockerAct.push tag, DockerAct.tagCmd tag latestTag,
              DockerAct.push latestTag])
        else
          Except.ok (true,
            [DockerAct.login username, DockerAct.push tag, DockerAct.tagCmd tag latestTag,
              DockerAct.push latestTag])

/-- build_image_from_tag (docker_build_from_latest_github_tag.py): assert
the docker- name precondition, then build; some tag on success, none on
a failed build, error on the assertion. -/
def buildImageFromTag (buildOk : Bool) (githubLogin repoName tag dockerLogin : String) :
    Except Unit (Option String) :=
  if repoName.data.take 7 = "docker-".data then
    Except.ok (if buildOk then
      some (dockerLogin ++ "/" ++ String.mk (repoName.data.drop 7) ++ ":" ++ tag)
    else none)
  else Except.error ()

/-- build_image_from_github_tag (docker_build_from_latest_tag.py): same
derivation and assertion as build_image_from_tag. -/
def buildImageFromGithubTag (buildOk : Bool) (githubLogin repoName tag dockerLogin : String) :
    Except Unit (Option String) :=
  if repoName.data.take 7 = "docker-".data then
    Except.ok (if buildOk then
      some (dockerLogin ++ "/" ++ String.mk (repoName.data.drop 7) ++ ":" ++ tag)
    else none)
  else Except.error ()

/-- build_image_from_local_tag: same derivation, building from the local
working copy path instead of a URL. -/
def buildImageFromLocalTag (buildOk : Bool) (repoName tag dockerLogin : String) :
    Except Unit (Option String) :=
  if repoName.data.take 7 = "docker-".data then
    Except.ok (if buildOk then
      some (dockerLogin ++ "/" ++ String.mk (repoName.data.drop 7) ++ ":" ++ tag)
    else none)
  else Except.error ()

/-- Truthiness of an optional string as Python sees it: a missing value
and the empty string are both falsy. -/
def pyTruthy : Option String → Bool
  | none => false
  | some s => !s.isEmpty

/-- build_and_push_github_tag: build, then push exactly when a docker
access token was supplied; a failed build returns false with no docker
operation attempted, a missing token returns true with none attempted. -/
def buildAndPushGithubTag (buildOk : Bool) (env : PushEnv)
    (githubLogin githubRepoName githubRepoTag dockerLogin : String)
    (dockerAccessToken : Option String) : Except Unit (Bool × List DockerAct) :=
  match buildImageFromGithubTag buildOk githubLogin githubRepoName githubRepoTag dockerLogin with
  | Except.error e => Except.error e
  | Except.ok none => Except.ok (false, [])
  | Except.ok (some imageTag) =>
    if pyTruthy dockerAccessToken then
      pushImageToDockerhub env (dockerAccessToken.getD "") imageTag
    else Except.ok (true, [])

/-- The per-repository body of update_fa_repos in
docker_build_from_latest_tag.py: the github branch when a github token
is supplied, the local branch otherwise.  The result is none when the
tag resolution failed (which makes the loop return), otherwise the
success flag and the docker operations attempted. -/
def repoBodyLatest (githubAccessToken dockerAccessToken : Option String)
    (resolveGithub resolveLocal : Option String) (buildOk : Bool) (env : PushEnv)
    (repoName : String) : Except Unit (Option (Bool × List DockerAct)) :=
  if pyTruthy githubAccessToken then
    match resolveGithub with
    | none => Except.ok none
    | some latestTag =>
      match buildAndPushGithubTag buildOk env "FAndersson" repoName latestTag
          "fredrikandersson" dockerAccessToken with
      | Except.error e => Except.error e
      | Except.ok r => Except.ok (some r)
  else
    match resolveLocal with
    | none => Except.ok none
    | some latestTag =>
      match buildImageFromLocalTag buildOk repoName latestTag "fredrikandersson" with
      | Except.error e => Except.error e
      | Except.ok r => Except.ok (some (r.isSome, []))

/-- The fixed fleet of repositories, shared by the scripts. -/
def fleetRepos : List String :=
  [ "docker-debian-stable-dev-image-base",
    "docker-debian-stable-cpp-image-base",
    "docker-debian-stable-cpp-image-clang",
    "docker-debian-stable-cpp-image-gcc",
    "docker-debian-stable-latex-image",
    "docker-debian-stable-python-image",
    "docker-debian-testing-dev-image-base",
    "docker-debian-testing-cpp-image-base",
    "docker-debian-testing-cpp-image-clang",
    "docker-debian-testing-cpp-image-gcc",
    "docker-debian-testing-python-image" ]

/-- The repository loop of update_fa_repos in
docker_build_from_latest_github_tag.py: returns the processed
repositories with their outcome; stops (return) both when the tag
resolution fails and when build_and_push_tag fails. -/
def runGhFile (resolve : String → Option String) (buildPush : String → String → Bool) :
    List String → List (String × Bool)
  | [] => []
  | r :: rest =>
    match resolve r with
    | none => [(r, false)]
    | some t =>
      if buildPush r t then (r, true) :: runGhFile resolve buildPush rest
      else [(r, false)]

/-- The repository loop of update_fa_repos in
docker_build_from_latest_tag.py: stops (return) when the tag resolution
fails, but only prints and continues when the build or push fails. -/
def runLatestFile (resolve : String → Option String) (build : String → String → Bool) :
    List String → List (String × Bool)
  | [] => []
  | r :: rest =>
    match resolve r with
    | none => [(r, false)]
    | some t => (r, build r t) :: runLatestFile resolve build rest

/-- A repository succeeded in the github-tag workflow: its tag resolved
and the build-and-push call returned true. -/
def okGh (resolve : String → Option String) (buildPush : String → String → Bool)
    (r : String) : Bool :=
  match resolve r with
  | none => false
  | some t => buildPush r t

/-- The tag resolution of a repository succeeded. -/
def okRes (resolve : String → Option String) (r : String) : Bool :=
  (resolve r).isSome

/-! ## The git commit-and-tag procedure (update_images_to_new_release.py)

The per-repository body after the Dockerfile rewrite: write the file,
commit when the tree differs from the last commit, delete an existing
same-named tag (locally, and - unconditionally in the code - by a push
of an empty refspec on the remote), create the tag at the tip, and push
branch and tag when requested.  The state tracks the commit counter, the
committed and working file content and the tags; remote operations are
returned as a trace. -/

/-- A git tag object: name, target commit and message. -/
structure GitTag where
  name : String
  target : Nat
  message : String
deriving DecidableEq

/-- A remote (network) git operation performed by the script. -/
inductive GitRemoteOp where
  | pushDeleteTag (name : String)
  | pushBranchForce
  | pushTag (name : String)
deriving DecidableEq

/-- The modelled state of one repository working copy. -/
structure GitState where
  tip : Nat
  commitCount : Nat
  tipContent : String
  workFile : String
  tags : List GitTag
deriving DecidableEq

/-- get_tag: the first tag with the given name, none when absent. -/
def getTag : List GitTag → String → Option GitTag
  | [], _ => none
  | t :: rest, n => if t.name = n then some t else getTag rest n

/-- The write-and-commit part of the body: write the rewritten recipe to
the working file, then commit exactly when the working tree differs from
the last commit (the commit moves the tip to a fresh commit id). -/
def commitStep (s : GitState) (newContent : String) : GitState :=
  let s1 : GitState := { s with workFile := newContent }
  if s1.workFile ≠ s1.tipContent then
    { s1 with tip := s1.commitCount, commitCount := s1.commitCount + 1,
              tipContent := s1.workFile }
  else s1

/-- The tag part of the body: delete an existing tag of the same name
(locally, and by an unconditional remote push of an empty refspec), then
create the tag at the current tip. -/
def tagReplaceStep (s : GitState) (tagName tagMessage : String) :
    GitState × List GitRemoteOp :=
  let tagHit := getTag s.tags tagName
  let s3 : GitState :=
    match tagHit with
    | some _ => { s with tags := s.tags.eraseP (fun t => t.name == tagName) }
    | none => s
  let delOps : List GitRemoteOp :=
    match tagHit with
    | some _ => [GitRemoteOp.pushDeleteTag tagName]
    | none => []
  ({ s3 with tags := s3.tags ++ [⟨tagName, s3.tip, tagMessage⟩] }, delOps)

/-- The per-repository commit-and-tag body of update_fa_repos in
update_images_to_new_release.py, returning the new state and the trace
of remote operations. -/
def commitAndTag (s : GitState) (newContent commitMessage tagName tagMessage : String)
    (push : Bool) : GitState × List GitRemoteOp :=
  let s2 := commitStep s newContent
  let r := tagReplaceStep s2 tagName tagMessage
  let pushOps : List GitRemoteOp :=
    if push then [GitRemoteOp.pushBranchForce, GitRemoteOp.pushTag tagName] else []
  (r.1, r.2 ++ pushOps)

/-- A resolver outcome where every repository resolves a tag; used as a
concrete run of the build workflows. -/
def cexResolve : String → Option String := fun _ => some "20230612"

/-- A build outcome where exactly the first fleet repository fails to
build; used as a concrete run of the build workflows. -/
def cexBuild : String → String → Bool :=
  fun r _ => r != "docker-debian-stable-dev-image-base"

/-- A working copy whose committed recipe differs from the rewritten one
and which already carries the release tag. -/
def c1State : GitState :=
  { tip := 0, commitCount := 1, tipContent := "FROM debian:20230101",
    workFile := "FROM debian:20230101", tags := [⟨"2023-06-12", 0, "old release"⟩] }

/-- A working copy whose committed recipe already equals the rewritten
content. -/
def c8State : GitState :=
  { tip := 0, commitCount := 1, tipContent := "FROM debian:20230612",
    workFile := "FROM debian:20230612", tags := [] }

/-! ## Lemmas about the character classes and the two date patterns -/

theorem charClass_eq_zero (c : Char) : charClass c = 0 ↔ c.isDigit = true := by
  unfold charClass
  by_cases h : c.isDigit
  · simp [h]
  · by_cases h2 : c = '-' <;> simp [h, h2]

theorem charClass_eq_one (c : Char) : charClass c = 1 ↔ c = '-' := by
  unfold charClass
  by_cases h : c.isDigit
  · simp only [if_pos h]
    constructor
    · intro h0; omega
    · intro hc; subst hc; exact absurd h (by decide)
  · by_cases h2 : c = '-' <;> simp [h, h2]

theorem charClass_beq_zero (c : Char) : (charClass c == 0) = c.isDigit := by
  by_cases h : c.isDigit
  · simp [charClass, h]
  · have hf : c.isDigit = false := by
      cases hb : c.isDigit
      · rfl
      · exact absurd hb h
    by_cases h2 : c = '-' <;> simp [charClass, hf, h2]

theorem all_isDigit_class (l : List Char) :
    l.all Char.isDigit = (l.map charClass).all (fun k => k == 0) := by
  induction l with
  | nil => rfl
  | cons a t ih =>
    simp only [List.all_cons, List.map_cons]
    rw [ih, charClass_beq_zero]

theorem map_class_of_digits (l : List Char) (h : l.all Char.isDigit = true) :
    l.map charClass = List.replicate l.length 0 := by
  induction l with
  | nil => rfl
  | cons a t ih =>
    simp only [List.all_cons, Bool.and_eq_true] at h
    simp only [List.map_cons, List.length_cons, List.replicate_succ]
    rw [ih h.2]
    have := (charClass_eq_zero a).mpr h.1
    rw [this]

theorem digitsSeg_region {xs : List Char} {s n : Nat} (h : digitsSeg xs s n = true) :
    ((xs.drop s).take n).map charClass = List.replicate n 0 := by
  unfold digitsSeg at h
  simp only [Bool.and_eq_true, decide_eq_true_eq] at h
  rw [map_class_of_digits _ h.2, h.1]

theorem digitsSeg_congr {A B : List Char} (h : A.map charClass = B.map charClass)
    (s n : Nat) : digitsSeg A s n = digitsSeg B s n := by
  have hmap : ((A.drop s).take n).map charClass = ((B.drop s).take n).map charClass := by
    simp only [List.map_take, List.map_drop]
    rw [h]
  have h1 : ((A.drop s).take n).length = ((B.drop s).take n).length := by
    have := congrArg List.length hmap; simpa using this
  unfold digitsSeg
  rw [h1, all_isDigit_class, all_isDigit_class, hmap]

theorem hyphen_class_get (l : List Char) (i : Nat) :
    l.get? i = some '-' ↔ (l.map charClass).get? i = some 1 := by
  rw [List.get?_map]
  cases hg : l.get? i with
  | none => simp
  | some c => simp [charClass_eq_one]

theorem hyphenAt_congr {A B : List Char} (h : A.map charClass = B.map charClass)
    (i : Nat) : hyphenAt A i = hyphenAt B i := by
  unfold hyphenAt
  rw [decide_eq_decide]
  rw [hyphen_class_get, hyphen_class_get, h]

theorem digits8At_congr {A B : List Char} (h : A.map charClass = B.map charClass) :
    digits8At A = digits8At B := by
  unfold digits8At
  exact digitsSeg_congr h 0 8

theorem isoAt_congr {A B : List Char} (h : A.map charClass = B.map charClass) :
    isoAt A = isoAt B := by
  unfold isoAt
  rw [digitsSeg_congr h 0 4, digitsSeg_congr h 5 2, digitsSeg_congr h 8 2,
    hyphenAt_congr h 4, hyphenAt_congr h 7]

theorem scanFind_congr (test : List Char → Bool)
    (htest : ∀ A B : List Char, A.map charClass = B.map charClass → test A = test B) :
    ∀ A B : List Char, A.map charClass = B.map charClass →
      scanFind test A = scanFind test B := by
  intro A
  induction A with
  | nil =>
    intro B h
    cases B with
    | nil => rfl
    | cons b B => simp at h
  | cons a A ih =>
    intro B h
    cases B with
    | nil => simp at h
    | cons b B =>
      simp only [List.map_cons, List.cons.injEq] at h
      simp only [scanFind]
      rw [htest (a :: A) (b :: B) (by simp [h.1, h.2]), ih B h.2]

theorem scanFind_bound (test : List Char → Bool) (m : Nat)
    (htest : ∀ xs, test xs = true → m ≤ xs.length) :
    ∀ xs s, scanFind test xs = some s → s + m ≤ xs.length := by
  intro xs
  induction xs with
  | nil => intro s h; simp [scanFind] at h
  | cons x t ih =>
    intro s h
    simp only [scanFind] at h
    by_cases ht : test (x :: t) = true
    · rw [if_pos ht] at h
      have hs : s = 0 := by
        injection h with h2
        omega
      subst hs
      have := htest _ ht
      simpa using this
    · rw [if_neg ht] at h
      cases hf : scanFind test t with
      | none => rw [hf] at h; simp at h
      | some s2 =>
        rw [hf] at h
        simp at h
        have := ih s2 hf
        simp only [List.length_cons]
        omega

theorem scanFind_found (test : List Char → Bool) :
    ∀ xs s, scanFind test xs = some s → test (xs.drop s) = true := by
  intro xs
  induction xs with
  | nil => intro s h; simp [scanFind] at h
  | cons x t ih =>
    intro s h
    simp only [scanFind] at h
    by_cases ht : test (x :: t) = true
    · rw [if_pos ht] at h
      have hs : s = 0 := by injection h with h2; omega
      subst hs
      simpa using ht
    · rw [if_neg ht] at h
      cases hf : scanFind test t with
      | none => rw [hf] at h; simp at h
      | some s2 =>
        rw [hf] at h
        simp at h
        subst h
        simpa using ih s2 hf

theorem scanFind_eq_none (test : List Char → Bool) (xs : List Char)
    (h : ∀ i, i < xs.length → test (xs.drop i) = false) : scanFind test xs = none := by
  induction xs with
  | nil => rfl
  | cons x t ih =>
    have h0 : test (x :: t) = false := by
      have := h 0 (by simp)
      simpa using this
    simp only [scanFind, h0]
    rw [ih]
    · rfl
    · intro i hi
      have := h (i + 1) (by simpa using Nat.succ_lt_succ hi)
      simpa using this

theorem digits8At_bound (xs : List Char) (h : digits8At xs = true) : 8 ≤ xs.length := by
  unfold digits8At digitsSeg at h
  simp only [Bool.and_eq_true, decide_eq_true_eq] at h
  have := h.1
  simp only [List.drop_zero, List.length_take] at this
  omega

theorem isoAt_bound (xs : List Char) (h : isoAt xs = true) : 10 ≤ xs.length := by
  unfold isoAt at h
  simp only [Bool.and_eq_true] at h
  obtain ⟨⟨⟨⟨h04, h4⟩, h52⟩, h7⟩, h82⟩ := h
  unfold digitsSeg at h82
  simp only [Bool.and_eq_true, decide_eq_true_eq] at h82
  have := h82.1
  simp only [List.length_take, List.length_drop] at this
  omega

theorem hyphenAt_take {xs : List Char} {i : Nat} (h : hyphenAt xs i = true) :
    (xs.drop i).take 1 = ['-'] := by
  unfold hyphenAt at h
  rw [decide_eq_true_eq] at h
  have h0 : (xs.drop i).get? 0 = some '-' := by
    rw [List.get?_drop]
    simpa using h
  cases hd : xs.drop i with
  | nil => rw [hd] at h0; simp at h0
  | cons c t =>
    rw [hd] at h0
    simp only [List.get?_cons_zero, Option.some.injEq] at h0
    simp [h0]

theorem isoAt_region {xs : List Char} (h : isoAt xs = true) :
    (xs.take 10).map charClass = isoClassPattern := by
  unfold isoAt at h
  simp only [Bool.and_eq_true] at h
  obtain ⟨⟨⟨⟨h04, h4⟩, h52⟩, h7⟩, h82⟩ := h
  have e04 : (xs.take 4).map charClass = List.replicate 4 0 := by
    have := digitsSeg_region h04
    rwa [List.drop_zero] at this
  have e4 : (xs.drop 4).take 1 = ['-'] := hyphenAt_take h4
  have e52 : ((xs.drop 5).take 2).map charClass = List.replicate 2 0 := digitsSeg_region h52
  have e7 : (xs.drop 7).take 1 = ['-'] := hyphenAt_take h7
  have e82 : ((xs.drop 8).take 2).map charClass = List.replicate 2 0 := digitsSeg_region h82
  have d1 : xs.take 10 = xs.take 4 ++ (xs.drop 4).take 6 := List.take_add xs 4 6
  have d2 : (xs.drop 4).take 6 = (xs.drop 4).take 1 ++ (xs.drop 5).take 5 := by
    have := List.take_add (xs.drop 4) 1 5
    rwa [List.drop_drop] at this
  have d3 : (xs.drop 5).take 5 = (xs.drop 5).take 2 ++ (xs.drop 7).take 3 := by
    have := List.take_add (xs.drop 5) 2 3
    rwa [List.drop_drop] at this
  have d4 : (xs.drop 7).take 3 = (xs.drop 7).take 1 ++ (xs.drop 8).take 2 := by
    have := List.take_add (xs.drop 7) 1 2
    rwa [List.drop_drop] at this
  rw [d1, d2, d3, d4]
  simp only [List.map_append]
  rw [e04, e4, e52, e7, e82]
  decide

theorem tagDateToIso_class {D : List Char} (hlen : D.length = 8)
    (hdig : D.all Char.isDigit = true) :
    (tagDateToIso D).map charClass = isoClassPattern := by
  have hsub : ∀ l : List Char, l.Sublist D → l.all Char.isDigit = true := by
    intro l hl
    rw [List.all_eq_true] at hdig ⊢
    exact fun x hx => hdig x (hl.subset hx)
  have e1 : (D.take 4).map charClass = List.replicate 4 0 := by
    rw [map_class_of_digits _ (hsub _ (List.take_sublist 4 D))]
    rw [List.length_take, hlen]
    decide
  have e2 : ((D.drop 4).take 2).map charClass = List.replicate 2 0 := by
    rw [map_class_of_digits _ (hsub _ ((List.take_sublist 2 _).trans (List.drop_sublist 4 D)))]
    rw [List.length_take, List.length_drop, hlen]
    decide
  have e3 : ((D.drop 6).take 2).map charClass = List.replicate 2 0 := by
    rw [map_class_of_digits _ (hsub _ ((List.take_sublist 2 _).trans (List.drop_sublist 6 D)))]
    rw [List.length_take, List.length_drop, hlen]
    decide
  unfold tagDateToIso
  simp only [List.map_append, List.map_cons]
  rw [e1, e2, e3]
  decide

theorem tagDateToIso_length {D : List Char} (hlen : D.length = 8) :
    (tagDateToIso D).length = 10 := by
  unfold tagDateToIso
  simp only [List.length_append, List.length_cons, List.length_take, List.length_drop, hlen]
  omega

/-! ## Lemmas about the scan-and-replace loop -/

theorem take_seg_drop {α : Type} (K : List α) (a m : Nat) :
    K.take a ++ ((K.drop a).take m ++ K.drop (a + m)) = K := by
  conv_rhs => rw [← List.take_append_drop a K]
  congr 1
  conv_rhs => rw [← List.take_append_drop m (K.drop a)]
  congr 1
  rw [List.drop_drop, Nat.add_comm]

theorem scanPass_classMap (find : List Char → Option Nat) (mlen : Nat) (repl : List Char)
    (hreg : ∀ xs s, find xs = some s →
      ((xs.drop s).take mlen).map charClass = repl.map charClass) :
    ∀ (fuel : Nat) (content : List Char) (off : Nat),
      (scanPass find mlen repl fuel content off).map charClass = content.map charClass := by
  intro fuel
  induction fuel with
  | zero => intro content off; rfl
  | succ f ih =>
    intro content off
    cases hf : find (content.drop off) with
    | none => simp only [scanPass, hf]
    | some s =>
      simp only [scanPass, hf]
      rw [ih]
      have hr := hreg _ _ hf
      rw [List.drop_drop] at hr
      rw [List.map_append, List.map_append, List.map_take, List.map_drop, ← hr,
        List.map_take, List.map_drop, List.append_assoc]
      exact take_seg_drop (content.map charClass) (off + s) mlen

theorem scanPass_length (find : List Char → Option Nat) (mlen : Nat) (repl : List Char)
    (hb : ∀ xs s, find xs = some s → s + mlen ≤ xs.length)
    (hm : 0 < mlen) (hr : repl.length = mlen) :
    ∀ (fuel : Nat) (content : List Char) (off : Nat),
      (scanPass find mlen repl fuel content off).length = content.length := by
  intro fuel
  induction fuel with
  | zero => intro content off; rfl
  | succ f ih =>
    intro content off
    cases hf : find (content.drop off) with
    | none => simp only [scanPass, hf]
    | some s =>
      simp only [scanPass, hf]
      rw [ih]
      have hb2 := hb _ _ hf
      rw [List.length_drop] at hb2
      simp only [List.length_append, List.length_take, List.length_drop, hr]
      omega

theorem get?_overwrite {α : Type} (c repl : List α) (a m i : Nat)
    (hr : repl.length = m) (hb : a + m ≤ c.length) :
    (c.take a ++ repl ++ c.drop (a + m)).get? i =
      if i < a then c.get? i else if i < a + m then repl.get? (i - a) else c.get? i := by
  have ha : (c.take a).length = a := by
    rw [List.length_take]
    omega
  by_cases h1 : i < a
  · rw [if_pos h1,
      List.get?_append (by rw [List.length_append, ha, hr]; omega),
      List.get?_append (by rw [ha]; omega),
      List.get?_take h1]
  · by_cases h2 : i < a + m
    · rw [if_neg h1, if_pos h2,
        List.get?_append (by rw [List.length_append, ha, hr]; omega),
        List.get?_append_right (by rw [ha]; omega), ha]
    · rw [if_neg h1, if_neg h2,
        List.get?_append_right (by rw [List.length_append, ha, hr]; omega),
        List.get?_drop]
      congr 1
      rw [List.length_append, ha, hr]
      omega

theorem scanPass_rel (find : List Char → Option Nat) (mlen : Nat) (repl : List Char)
    (hcong : ∀ A B : List Char, A.map charClass = B.map charClass → find A = find B)
    (hb : ∀ xs s, find xs = some s → s + mlen ≤ xs.length)
    (hm : 0 < mlen) (hr : repl.length = mlen) :
    ∀ (fuel off : Nat) (A B : List Char),
      A.map charClass = B.map charClass →
      ∀ i, (scanPass find mlen repl fuel A off).get? i
            = (scanPass find mlen repl fuel B off).get? i
        ∨ ((scanPass find mlen repl fuel A off).get? i = A.get? i
            ∧ (scanPass find mlen repl fuel B off).get? i = B.get? i) := by
  intro fuel
  induction fuel with
  | zero => intro off A B hmap i; exact Or.inr ⟨rfl, rfl⟩
  | succ f ih =>
    intro off A B hmap i
    have hdropmap : (A.drop off).map charClass = (B.drop off).map charClass := by
      simp only [List.map_drop]
      rw [hmap]
    have hfind : find (A.drop off) = find (B.drop off) := hcong _ _ hdropmap
    cases hf : find (A.drop off) with
    | none =>
      have hfB : find (B.drop off) = none := by rw [← hfind]; exact hf
      simp only [scanPass, hf, hfB]
      exact Or.inr (by simp)
    | some s =>
      have hfB : find (B.drop off) = some s := by rw [← hfind]; exact hf
      simp only [scanPass, hf, hfB]
      have hlenAB : A.length = B.length := by
        have := congrArg List.length hmap
        simpa using this
      have hbA : off + s + mlen ≤ A.length := by
        have := hb _ _ hf
        rw [List.length_drop] at this
        omega
      have hbB : off + s + mlen ≤ B.length := by omega
      have hmap2 : (A.take (off + s) ++ repl ++ A.drop (off + s + mlen)).map charClass
          = (B.take (off + s) ++ repl ++ B.drop (off + s + mlen)).map charClass := by
        simp only [List.map_append, List.map_take, List.map_drop]
        rw [hmap]
      rcases ih (off + s + mlen) _ _ hmap2 i with h | ⟨h1, h2⟩
      · exact Or.inl h
      · rw [get?_overwrite A repl (off + s) mlen i hr hbA] at h1
        rw [get?_overwrite B repl (off + s) mlen i hr hbB] at h2
        by_cases c1 : i < off + s
        · rw [if_pos c1] at h1 h2
          exact Or.inr ⟨h1, h2⟩
        · by_cases c2 : i < off + s + mlen
          · rw [if_neg c1, if_pos c2] at h1 h2
            exact Or.inl (h1.trans h2.symm)
          · rw [if_neg c1, if_neg c2] at h1 h2
            exact Or.inr ⟨h1, h2⟩

/-! ## Lemmas about the max-by-key selection -/

theorem pyMaxAux_spec {α : Type} (key : α → Nat) :
    ∀ (l : List α) (best : α),
      (pyMaxAux key best l = best ∧ ∀ j a, l.get? j = some a → key a ≤ key best)
      ∨ (∃ i a, l.get? i = some a ∧ pyMaxAux key best l = a
          ∧ key best < key a
          ∧ (∀ j b, l.get? j = some b → key b ≤ key a)
          ∧ (∀ j b, l.get? j = some b → j < i → key b < key a)) := by
  intro l
  induction l with
  | nil =>
    intro best
    left
    exact ⟨rfl, fun j a h => by simp at h⟩
  | cons x xs ih =>
    intro best
    by_cases hx : key x > key best
    · have hstep : pyMaxAux key best (x :: xs) = pyMaxAux key x xs := by
        simp only [pyMaxAux, if_pos hx]
      rcases ih x with ⟨heq, hall⟩ | ⟨i, a, hia, heq, hlt, hall, hfirst⟩
      · right
        refine ⟨0, x, by simp, by rw [hstep, heq], by omega, ?_, ?_⟩
        · intro j b hj
          cases j with
          | zero => simp at hj; subst hj; omega
          | succ j2 =>
            simp only [List.get?_cons_succ] at hj
            exact hall j2 b hj
        · intro j b hj hji
          omega
      · right
        refine ⟨i + 1, a, by simpa using hia, by rw [hstep, heq], by omega, ?_, ?_⟩
        · intro j b hj
          cases j with
          | zero => simp at hj; subst hj; omega
          | succ j2 =>
            simp only [List.get?_cons_succ] at hj
            exact hall j2 b hj
        · intro j b hj hji
          cases j with
          | zero => simp at hj; subst hj; omega
          | succ j2 =>
            simp only [List.get?_cons_succ] at hj
            exact hfirst j2 b hj (by omega)
    · have hstep : pyMaxAux key best (x :: xs) = pyMaxAux key best xs := by
        simp only [pyMaxAux, if_neg hx]
      have hxle : key x ≤ key best := by omega
      rcases ih best with ⟨heq, hall⟩ | ⟨i, a, hia, heq, hlt, hall, hfirst⟩
      · left
        refine ⟨by rw [hstep, heq], ?_⟩
        intro j b hj
        cases j with
        | zero => simp at hj; subst hj; omega
        | succ j2 =>
          simp only [List.get?_cons_succ] at hj
          exact hall j2 b hj
      · right
        refine ⟨i + 1, a, by simpa using hia, by rw [hstep, heq], by omega, ?_, ?_⟩
        · intro j b hj
          cases j with
          | zero => simp at hj; subst hj; omega
          | succ j2 =>
            simp only [List.get?_cons_succ] at hj
            exact hall j2 b hj
        · intro j b hj hji
          cases j with
          | zero => simp at hj; subst hj; omega
          | succ j2 =>
            simp only [List.get?_cons_succ] at hj
            exact hfirst j2 b hj (by omega)

theorem pyMax_spec {α : Type} (key : α → Nat) (l : List α) (hne : l ≠ []) :
    ∃ i t, l.get? i = some t
      ∧ pyMax key l = some t
      ∧ (∀ j b, l.get? j = some b → key b ≤ key t)
      ∧ (∀ j b, l.get? j = some b → j < i → key b < key t) := by
  cases l with
  | nil => exact absurd rfl hne
  | cons x xs =>
    rcases pyMaxAux_spec key xs x with ⟨heq, hall⟩ | ⟨i, a, hia, heq, hlt, hall, hfirst⟩
    · refine ⟨0, x, by simp, by simp [pyMax, heq], ?_, ?_⟩
      · intro j b hj
        cases j with
        | zero => simp at hj; subst hj; omega
        | succ j2 =>
          simp only [List.get?_cons_succ] at hj
          exact hall j2 b hj
      · intro j b hj hji
        omega
    · refine ⟨i + 1, a, by simpa using hia, by simp [pyMax, heq], ?_, ?_⟩
      · intro j b hj
        cases j with
        | zero => simp at hj; subst hj; omega
        | succ j2 =>
          simp only [List.get?_cons_succ] at hj
          exact hall j2 b hj
      · intro j b hj hji
        cases j with
        | zero => simp at hj; subst hj; omega
        | succ j2 =>
          simp only [List.get?_cons_succ] at hj
          exact hfirst j2 b hj (by omega)

theorem key_inj_of_pairwise {α : Type} (key : α → Nat) :
    ∀ l : List α, l.Pairwise (fun a b => key a ≠ key b) →
      ∀ a ∈ l, ∀ b ∈ l, key a = key b → a = b := by
  intro l
  induction l with
  | nil => intro _ a ha; simp at ha
  | cons x xs ih =>
    intro hp a ha b hb heq
    rw [List.pairwise_cons] at hp
    rcases List.mem_cons.mp ha with rfl | ha2
    · rcases List.mem_cons.mp hb with rfl | hb2
      · rfl
      · exact absurd heq (hp.1 b hb2)
    · rcases List.mem_cons.mp hb with rfl | hb2
      · exact absurd heq.symm (hp.1 a ha2)
      · exact ih hp.2 a ha2 b hb2 heq

/-! ## Lemmas about git tags -/

theorem getTag_eq_none (l : List GitTag) (n : String) :
    getTag l n = none ↔ ∀ t ∈ l, t.name ≠ n := by
  induction l with
  | nil => simp [getTag]
  | cons t rest ih =>
    by_cases ht : t.name = n
    · simp [getTag, ht]
    · simp [getTag, ht, ih]

theorem getTag_append_new (l : List GitTag) (n : String) (target : Nat) (msg : String)
    (hnone : ∀ t ∈ l, t.name ≠ n) :
    getTag (l ++ [⟨n, target, msg⟩]) n = some ⟨n, target, msg⟩ := by
  induction l with
  | nil => simp [getTag]
  | cons t rest ih =>
    have ht : t.name ≠ n := hnone t (by simp)
    simp only [List.cons_append, getTag, if_neg ht]
    exact ih fun u hu => hnone u (by simp [hu])

theorem eraseP_name_free (l : List GitTag) (n : String)
    (h : (l.map (fun t => t.name)).Nodup) :
    ∀ t ∈ l.eraseP (fun t => t.name == n), t.name ≠ n := by
  induction l with
  | nil => simp
  | cons x rest ih =>
    simp only [List.map_cons, List.nodup_cons] at h
    by_cases hx : x.name == n
    · simp only [List.eraseP_cons, hx, cond_true]
      intro t ht
      have hxn : x.name = n := by simpa using hx
      intro htn
      exact h.1 (by rw [← hxn] at htn; rw [← htn]; exact List.mem_map_of_mem _ ht)
    · have hx2 : (x.name == n) = false := by simpa using hx
      simp only [List.eraseP_cons, hx2, cond_false]
      intro t ht
      rcases List.mem_cons.mp ht with rfl | ht2
      · simpa using hx
      · exact ih h.2 t ht2

theorem commitStep_spec (s : GitState) (nc : String) :
    (commitStep s nc).commitCount
        = (if nc = s.tipContent then s.commitCount else s.commitCount + 1)
    ∧ (commitStep s nc).tipContent = nc
    ∧ (commitStep s nc).tags = s.tags := by
  by_cases hd : nc = s.tipContent
  · simp [commitStep, hd]
  · simp [commitStep, hd]

theorem tagReplaceStep_spec (s : GitState) (tn tm : String)
    (hw : (s.tags.map (fun t => t.name)).Nodup) :
    (tagReplaceStep s tn tm).1.tip = s.tip
    ∧ (tagReplaceStep s tn tm).1.commitCount = s.commitCount
    ∧ (tagReplaceStep s tn tm).1.tipContent = s.tipContent
    ∧ getTag (tagReplaceStep s tn tm).1.tags tn = some ⟨tn, s.tip, tm⟩
    ∧ ((tagReplaceStep s tn tm).1.tags.map (fun t => t.name)).Nodup := by
  cases hht : getTag s.tags tn with
  | none =>
    have hfree : ∀ t ∈ s.tags, t.name ≠ tn := (getTag_eq_none s.tags tn).mp hht
    refine ⟨by simp [tagReplaceStep, hht], by simp [tagReplaceStep, hht],
      by simp [tagReplaceStep, hht], ?_, ?_⟩
    · simp only [tagReplaceStep, hht]
      exact getTag_append_new s.tags tn s.tip tm hfree
    · simp only [tagReplaceStep, hht, List.map_append]
      rw [List.nodup_append]
      refine ⟨hw, by simp, ?_⟩
      intro a ha
      simp only [List.map_cons, List.map_nil, List.mem_cons, List.not_mem_nil] at *
      rcases List.mem_map.mp ha with ⟨t, ht, rfl⟩
      intro hcon
      rcases hcon with hcon | hcon
      · exact hfree t ht hcon
      · exact hcon
  | some hit =>
    have hfree : ∀ t ∈ s.tags.eraseP (fun t => t.name == tn), t.name ≠ tn :=
      eraseP_name_free s.tags tn hw
    have hsub : (s.tags.eraseP (fun t => t.name == tn)).Sublist s.tags :=
      List.eraseP_sublist s.tags
    refine ⟨by simp [tagReplaceStep, hht], by simp [tagReplaceStep, hht],
      by simp [tagReplaceStep, hht], ?_, ?_⟩
    · simp only [tagReplaceStep, hht]
      exact getTag_append_new _ tn s.tip tm hfree
    · simp only [tagReplaceStep, hht, List.map_append]
      rw [List.nodup_append]
      refine ⟨hw.sublist (hsub.map (fun t => t.name)), by simp, ?_⟩
      intro a ha
      rcases List.mem_map.mp ha with ⟨t, ht, rfl⟩
      simp only [List.map_cons, List.map_nil, List.mem_cons, List.not_mem_nil]
      intro hcon
      rcases hcon with hcon | hcon
      · exact hfree t ht hcon
      · exact hcon

theorem commitAndTag_spec (s : GitState) (nc cm tn tm : String) (push : Bool)
    (hw : (s.tags.map (fun t => t.name)).Nodup) :
    (commitAndTag s nc cm tn tm push).1.commitCount
        = (if nc = s.tipContent then s.commitCount else s.commitCount + 1)
    ∧ (commitAndTag s nc cm tn tm push).1.tipContent = nc
    ∧ getTag (commitAndTag s nc cm tn tm push).1.tags tn
        = some ⟨tn, (commitAndTag s nc cm tn tm push).1.tip, tm⟩
    ∧ ((commitAndTag s nc cm tn tm push).1.tags.map (fun t => t.name)).Nodup := by
  obtain ⟨hc1, hc2, hc3⟩ := commitStep_spec s nc
  have hw2 : ((commitStep s nc).tags.map (fun t => t.name)).Nodup := by rw [hc3]; exact hw
  obtain ⟨ht1, ht2, ht3, ht4, ht5⟩ := tagReplaceStep_spec (commitStep s nc) tn tm hw2
  have hfst : (commitAndTag s nc cm tn tm push).1 = (tagReplaceStep (commitStep s nc) tn tm).1 := rfl
  rw [hfst]
  exact ⟨by rw [ht2, hc1], by rw [ht3, hc2], by rw [ht4, ht1], ht5⟩

/-! ## Characterizations of the two fleet loops -/

theorem runGhFile_eq (resolve : String → Option String)
    (buildPush : String → String → Bool) :
    ∀ l : List String,
      runGhFile resolve buildPush l
        = (l.takeWhile (okGh resolve buildPush)
            ++ (l.dropWhile (okGh resolve buildPush)).take 1).map
              (fun r => (r, okGh resolve buildPush r)) := by
  intro l
  induction l with
  | nil => simp [runGhFile]
  | cons r rest ih =>
    cases hres : resolve r with
    | none =>
      have hok : okGh resolve buildPush r = false := by simp [okGh, hres]
      simp [runGhFile, hres, List.takeWhile_cons, List.dropWhile_cons, hok]
    | some t =>
      cases hbp : buildPush r t with
      | false =>
        have hok : okGh resolve buildPush r = false := by simp [okGh, hres, hbp]
        simp [runGhFile, hres, hbp, List.takeWhile_cons, List.dropWhile_cons, hok]
      | true =>
        have hok : okGh resolve buildPush r = true := by simp [okGh, hres, hbp]
        simp [runGhFile, hres, hbp, List.takeWhile_cons, List.dropWhile_cons, hok, ih]

theorem runLatestFile_eq (resolve : String → Option String)
    (build : String → String → Bool) :
    ∀ l : List String,
      runLatestFile resolve build l
        = (l.takeWhile (okRes resolve) ++ (l.dropWhile (okRes resolve)).take 1).map
            (fun r => (r, okGh resolve build r)) := by
  intro l
  induction l with
  | nil => simp [runLatestFile]
  | cons r rest ih =>
    cases hres : resolve r with
    | none =>
      have hok : okRes resolve r = false := by simp [okRes, hres]
      have hgf : okGh resolve build r = false := by simp [okGh, hres]
      simp [runLatestFile, hres, List.takeWhile_cons, List.dropWhile_cons, hok, hgf]
    | some t =>
      have hok : okRes resolve r = true := by simp [okRes, hres]
      have hgf : okGh resolve build r = build r t := by simp [okGh, hres]
      simp [runLatestFile, hres, List.takeWhile_cons, List.dropWhile_cons, hok, hgf, ih]

/-! ## Claim theorems -/

/-- C4: applying the recipe rewrite to the text
"FROM debian:20230101\n# 2023-01-01" with new date "20230612" returns
exactly "FROM debian:20230612\n# 2023-06-12". -/
theorem rewrite_scenario :
    rewriteRecipe "FROM debian:20230101\n# 2023-01-01".data "20230612".data
      = "FROM debian:20230612\n# 2023-06-12".data := by decide

/-- C6: a recipe text containing no compact date token and no ISO date
token is returned unchanged by the rewrite, for every 8-digit date. -/
theorem rewrite_no_tokens (T D : List Char) (hlen : D.length = 8)
    (hdig : D.all Char.isDigit = true)
    (h8 : ∀ i, i < T.length → digits8At (T.drop i) = false)
    (hiso : ∀ i, i < T.length → isoAt (T.drop i) = false) :
    rewriteRecipe T D = T := by
  have f8 : scanFind digits8At T = none := scanFind_eq_none _ _ h8
  have fI : scanFind isoAt T = none := scanFind_eq_none _ _ hiso
  have hc1 : scanPass (scanFind digits8At) 8 D (T.length + 1) T 0 = T := by
    simp only [scanPass, List.drop_zero, f8]
  calc rewriteRecipe T D
      = scanPass (scanFind isoAt) 10 (tagDateToIso D)
          ((scanPass (scanFind digits8At) 8 D (T.length + 1) T 0).length + 1)
          (scanPass (scanFind digits8At) 8 D (T.length + 1) T 0) 0 := rfl
    _ = scanPass (scanFind isoAt) 10 (tagDateToIso D) (T.length + 1) T 0 := by rw [hc1]
    _ = T := by simp only [scanPass, List.drop_zero, fI]

/-- Witness for C6: a token-free recipe text is returned unchanged. -/
theorem rewrite_no_tokens_witness :
    rewriteRecipe "FROM debian:latest".data "20230612".data = "FROM debian:latest".data :=
  rewrite_no_tokens _ _ (by decide) (by decide) (by decide) (by decide)

/-- C10: the rewrite never changes the length of the recipe text: both
replacement kinds substitute exactly as many characters as they match,
so the offset arithmetic of the loops never shifts the remaining text. -/
theorem rewrite_preserves_length (T D : List Char) (hlen : D.length = 8)
    (hdig : D.all Char.isDigit = true) :
    (rewriteRecipe T D).length = T.length := by
  have h1 : (scanPass (scanFind digits8At) 8 D (T.length + 1) T 0).length = T.length :=
    scanPass_length _ _ _ (scanFind_bound _ 8 digits8At_bound) (by omega) hlen _ _ _
  calc (rewriteRecipe T D).length
      = (scanPass (scanFind isoAt) 10 (tagDateToIso D)
          ((scanPass (scanFind digits8At) 8 D (T.length + 1) T 0).length + 1)
          (scanPass (scanFind digits8At) 8 D (T.length + 1) T 0) 0).length := rfl
    _ = (scanPass (scanFind digits8At) 8 D (T.length + 1) T 0).length :=
        scanPass_length _ _ _ (scanFind_bound _ 10 isoAt_bound) (by omega)
          (tagDateToIso_length hlen) _ _ _
    _ = T.length := h1

/-- Witness for C10 at the concrete scenario text. -/
theorem rewrite_preserves_length_witness :
    (rewriteRecipe "FROM debian:20230101\n# 2023-01-01".data "20230612".data).length
      = "FROM debian:20230101\n# 2023-01-01".data.length :=
  rewrite_preserves_length _ _ (by decide) (by decide)

/-- C9: for a repository name starting with the docker- name prefix, the
derived image reference is the account, a slash, the name with its first
seven characters stripped, a colon and the marker; a name without the
prefix fails the assertion (a fatal error, not the recoverable
build-failed outcome). -/
theorem docker_tag_derivation (buildOk : Bool) (gh name marker acct : String) :
    (name.data.take 7 = "docker-".data →
      buildImageFromTag buildOk gh name marker acct
          = Except.ok (if buildOk then
              some (acct ++ "/" ++ String.mk (name.data.drop 7) ++ ":" ++ marker)
            else none)
      ∧ buildImageFromGithubTag buildOk gh name marker acct
          = Except.ok (if buildOk then
              some (acct ++ "/" ++ String.mk (name.data.drop 7) ++ ":" ++ marker)
            else none)
      ∧ buildImageFromLocalTag buildOk name marker acct
          = Except.ok (if buildOk then
              some (acct ++ "/" ++ String.mk (name.data.drop 7) ++ ":" ++ marker)
            else none))
    ∧ (¬ name.data.take 7 = "docker-".data →
      buildImageFromTag buildOk gh name marker acct = Except.error ()
      ∧ buildImageFromGithubTag buildOk gh name marker acct = Except.error ()
      ∧ buildImageFromLocalTag buildOk name marker acct = Except.error ()) := by
  constructor
  · intro h
    exact ⟨by simp [buildImageFromTag, h], by simp [buildImageFromGithubTag, h],
      by simp [buildImageFromLocalTag, h]⟩
  · intro h
    exact ⟨by simp [buildImageFromTag, h], by simp [buildImageFromGithubTag, h],
      by simp [buildImageFromLocalTag, h]⟩

/-- Witness for C9: name docker-cpp-gcc, account acct, marker v3 derive
the reference acct/cpp-gcc:v3. -/
theorem docker_tag_derivation_witness :
    buildImageFromTag true "FAndersson" "docker-cpp-gcc" "v3" "acct"
      = Except.ok (some "acct/cpp-gcc:v3") := by
  have h := (docker_tag_derivation true "FAndersson" "docker-cpp-gcc" "v3" "acct").1 (by decide)
  exact h.1.trans (by rfl)

/-- C1 (code evaluation at the failing input): with push set to false
and the release tag already present, the body still performs a remote
operation, the push of the tag-deletion refspec. -/
theorem remote_delete_without_push :
    (commitAndTag c1State "FROM debian:20230612" "msg" "2023-06-12" "tagmsg" false).2
      = [GitRemoteOp.pushDeleteTag "2023-06-12"] := by rfl

/-- C2 (code evaluation at the failing input): the local branch of the
build workflow returns success after the build and attempts no docker
publish operation although a docker credential was supplied. -/
theorem local_build_ignores_credential :
    repoBodyLatest none (some "dockertoken") none (some "20230612") true
      ⟨true, true, true, true⟩ "docker-debian-stable-dev-image-base"
      = Except.ok (some (true, [])) := by rfl

/-- C3 counterexample: in the docker_build_from_latest_tag.py workflow,
the first fleet repository fails its build, yet every later repository
is still processed, refuting the halt-on-first-failure claim. -/
theorem latest_workflow_continues_after_failure :
    cexBuild "docker-debian-stable-dev-image-base" "20230612" = false
    ∧ (runLatestFile cexResolve cexBuild fleetRepos).map Prod.fst = fleetRepos :=
  ⟨by decide, by decide⟩

/-- C3 amended: the docker_build_from_latest_github_tag.py loop
processes exactly the repositories up to and including the first one
failing any step, while the docker_build_from_latest_tag.py loop halts
only on a marker-resolution failure and continues past build/publish
failures. -/
theorem fleet_halting_policies (resolve : String → Option String)
    (buildPush build : String → String → Bool) :
    runGhFile resolve buildPush fleetRepos
        = (fleetRepos.takeWhile (okGh resolve buildPush)
            ++ (fleetRepos.dropWhile (okGh resolve buildPush)).take 1).map
              (fun r => (r, okGh resolve buildPush r))
    ∧ runLatestFile resolve build fleetRepos
        = (fleetRepos.takeWhile (okRes resolve)
            ++ (fleetRepos.dropWhile (okRes resolve)).take 1).map
              (fun r => (r, okGh resolve build r)) :=
  ⟨runGhFile_eq resolve buildPush fleetRepos, runLatestFile_eq resolve build fleetRepos⟩

/-- C5: rewriting a recipe twice with the same 8-digit date gives the
same result as rewriting it once.  Both passes only replace segments
whose digit/hyphen skeleton equals that of the replacement, so the
skeleton of the text is invariant and the second run performs exactly
the same replacements at the same positions. -/
theorem rewrite_idempotent (T D : List Char) (hlen : D.length = 8)
    (hdig : D.all Char.isDigit = true) :
    rewriteRecipe (rewriteRecipe T D) D = rewriteRecipe T D := by
  have hDclass : D.map charClass = List.replicate 8 0 := by
    rw [map_class_of_digits D hdig, hlen]
  have hIclass : (tagDateToIso D).map charClass = isoClassPattern :=
    tagDateToIso_class hlen hdig
  have hIlen : (tagDateToIso D).length = 10 := tagDateToIso_length hlen
  have hcong8 : ∀ A B : List Char, A.map charClass = B.map charClass →
      scanFind digits8At A = scanFind digits8At B :=
    scanFind_congr _ fun A B h => digits8At_congr h
  have hbound8 : ∀ xs s, scanFind digits8At xs = some s → s + 8 ≤ xs.length :=
    scanFind_bound _ 8 digits8At_bound
  have hreg8 : ∀ xs s, scanFind digits8At xs = some s →
      ((xs.drop s).take 8).map charClass = D.map charClass := by
    intro xs s hf
    have h8 : digitsSeg (xs.drop s) 0 8 = true := scanFind_found _ _ _ hf
    have hreg := digitsSeg_region h8
    rw [List.drop_zero] at hreg
    rw [hreg, hDclass]
  have hcongI : ∀ A B : List Char, A.map charClass = B.map charClass →
      scanFind isoAt A = scanFind isoAt B :=
    scanFind_congr _ fun A B h => isoAt_congr h
  have hboundI : ∀ xs s, scanFind isoAt xs = some s → s + 10 ≤ xs.length :=
    scanFind_bound _ 10 isoAt_bound
  have hregI : ∀ xs s, scanFind isoAt xs = some s →
      ((xs.drop s).take 10).map charClass = (tagDateToIso D).map charClass := by
    intro xs s hf
    have hI : isoAt (xs.drop s) = true := scanFind_found _ _ _ hf
    rw [isoAt_region hI, hIclass]
  set X := rewriteRecipe T D with hXdef
  have hXexp : X = scanPass (scanFind isoAt) 10 (tagDateToIso D)
      ((scanPass (scanFind digits8At) 8 D (T.length + 1) T 0).length + 1)
      (scanPass (scanFind digits8At) 8 D (T.length + 1) T 0) 0 := hXdef
  have hXmap : X.map charClass = T.map charClass := by
    rw [hXexp]
    rw [scanPass_classMap _ _ _ hregI, scanPass_classMap _ _ _ hreg8]
  have hXlen : X.length = T.length := by
    have := congrArg List.length hXmap
    simpa using this
  have hc1Xmap : (scanPass (scanFind digits8At) 8 D (T.length + 1) X 0).map charClass
      = T.map charClass := by
    rw [scanPass_classMap _ _ _ hreg8]
    exact hXmap
  have hc1Xlen : (scanPass (scanFind digits8At) 8 D (T.length + 1) X 0).length
      = T.length := by
    have := congrArg List.length hc1Xmap
    simpa using this
  have hc1Tmap : (scanPass (scanFind digits8At) 8 D (T.length + 1) T 0).map charClass
      = T.map charClass := scanPass_classMap _ _ _ hreg8 _ _ _
  have hc1Tlen : (scanPass (scanFind digits8At) 8 D (T.length + 1) T 0).length
      = T.length := by
    have := congrArg List.length hc1Tmap
    simpa using this
  have hgoal : rewriteRecipe X D
      = scanPass (scanFind isoAt) 10 (tagDateToIso D) (T.length + 1)
          (scanPass (scanFind digits8At) 8 D (T.length + 1) X 0) 0 := by
    show scanPass (scanFind isoAt) 10 (tagDateToIso D)
        ((scanPass (scanFind digits8At) 8 D (X.length + 1) X 0).length + 1)
        (scanPass (scanFind digits8At) 8 D (X.length + 1) X 0) 0 = _
    rw [hXlen, hc1Xlen]
  have hXexp2 : X = scanPass (scanFind isoAt) 10 (tagDateToIso D) (T.length + 1)
      (scanPass (scanFind digits8At) 8 D (T.length + 1) T 0) 0 := by
    rw [hXexp, hc1Tlen]
  rw [hgoal]
  have hmidmap : (scanPass (scanFind digits8At) 8 D (T.length + 1) X 0).map charClass
      = (scanPass (scanFind digits8At) 8 D (T.length + 1) T 0).map charClass := by
    rw [hc1Xmap, hc1Tmap]
  have R1 := scanPass_rel _ _ _ hcong8 hbound8 (by omega) hlen (T.length + 1) 0 X T hXmap
  have R2 := scanPass_rel _ _ _ hcongI hboundI (by omega) hIlen (T.length + 1) 0 _ _ hmidmap
  apply List.ext
  intro n
  rcases R2 n with h | ⟨h1, h2⟩
  · conv_rhs => rw [hXexp2]
    exact h
  · rcases R1 n with g | ⟨g1, g2⟩
    · conv_rhs => rw [hXexp2]
      calc (scanPass (scanFind isoAt) 10 (tagDateToIso D) (T.length + 1)
            (scanPass (scanFind digits8At) 8 D (T.length + 1) X 0) 0).get? n
          = (scanPass (scanFind digits8At) 8 D (T.length + 1) X 0).get? n := h1
        _ = (scanPass (scanFind digits8At) 8 D (T.length + 1) T 0).get? n := g
        _ = (scanPass (scanFind isoAt) 10 (tagDateToIso D) (T.length + 1)
            (scanPass (scanFind digits8At) 8 D (T.length + 1) T 0) 0).get? n := h2.symm
    · exact h1.trans g1

/-- Witness for C5 at the concrete scenario text and date. -/
theorem rewrite_idempotent_witness :
    rewriteRecipe (rewriteRecipe "FROM debian:20230101\n# 2023-01-01".data "20230612".data)
        "20230612".data
      = rewriteRecipe "FROM debian:20230101\n# 2023-01-01".data "20230612".data :=
  rewrite_idempotent _ _ (by decide) (by decide)

/-- C7: on a non-empty tag list both resolvers return the tag whose
commit has the maximal timestamp; on equal timestamps the first tag in
enumeration order wins, and with pairwise distinct timestamps the
result does not depend on the enumeration order. -/
theorem latest_marker_max (tags : List RepoTag) (hne : tags ≠ []) :
    ∃ i t, tags.get? i = some t
      ∧ getLatestLocalTag tags = some t
      ∧ getLatestTag true tags = some t.name
      ∧ (∀ j b, tags.get? j = some b → b.commitDate ≤ t.commitDate)
      ∧ (∀ j b, tags.get? j = some b → j < i → b.commitDate < t.commitDate)
      ∧ (tags.Pairwise (fun a b => a.commitDate ≠ b.commitDate) →
          ∀ tags2 : List RepoTag, tags.Perm tags2 → getLatestLocalTag tags2 = some t) := by
  have hlen0 : ¬ tags.length = 0 := by
    intro h0
    exact hne (List.length_eq_zero.mp h0)
  obtain ⟨i, t, hit, hmax, hall, hfirst⟩ := pyMax_spec (fun t => t.commitDate) tags hne
  refine ⟨i, t, hit, ?_, ?_, hall, hfirst, ?_⟩
  · simp [getLatestLocalTag, hlen0, hmax]
  · simp [getLatestTag, hlen0, hmax]
  · intro hpw tags2 hperm
    have hne2 : tags2 ≠ [] := by
      intro h0
      rw [h0] at hperm
      exact hne hperm.eq_nil
    obtain ⟨i2, t2, hit2, hmax2, hall2, hfirst2⟩ :=
      pyMax_spec (fun t => t.commitDate) tags2 hne2
    have hlen02 : ¬ tags2.length = 0 := by
      intro h0
      exact hne2 (List.length_eq_zero.mp h0)
    have hmem : t ∈ tags := List.get?_mem hit
    have hmem2 : t2 ∈ tags := hperm.mem_iff.mpr (List.get?_mem hit2)
    have hmemT2 : t ∈ tags2 := hperm.mem_iff.mp hmem
    have hle1 : t2.commitDate ≤ t.commitDate := by
      rcases List.mem_iff_get?.mp hmem2 with ⟨j, hj⟩
      exact hall j t2 hj
    have hle2 : t.commitDate ≤ t2.commitDate := by
      rcases List.mem_iff_get?.mp hmemT2 with ⟨j, hj⟩
      exact hall2 j t hj
    have heqt : t = t2 :=
      key_inj_of_pairwise (fun t => t.commitDate) tags hpw t hmem t2 hmem2
        (le_antisymm hle2 hle1)
    rw [← heqt] at hmax2
    simp [getLatestLocalTag, hlen02, hmax2]

/-- Witness for C7 at a concrete tag list with a duplicated maximal
timestamp: the first maximal tag is selected. -/
theorem latest_marker_max_witness :
    ∃ i t, [RepoTag.mk "a" 3, RepoTag.mk "b" 7, RepoTag.mk "c" 7].get? i = some t
      ∧ getLatestLocalTag [RepoTag.mk "a" 3, RepoTag.mk "b" 7, RepoTag.mk "c" 7] = some t
      ∧ getLatestTag true [RepoTag.mk "a" 3, RepoTag.mk "b" 7, RepoTag.mk "c" 7] = some t.name
      ∧ (∀ j b, [RepoTag.mk "a" 3, RepoTag.mk "b" 7, RepoTag.mk "c" 7].get? j = some b →
          b.commitDate ≤ t.commitDate)
      ∧ (∀ j b, [RepoTag.mk "a" 3, RepoTag.mk "b" 7, RepoTag.mk "c" 7].get? j = some b →
          j < i → b.commitDate < t.commitDate)
      ∧ ([RepoTag.mk "a" 3, RepoTag.mk "b" 7, RepoTag.mk "c" 7].Pairwise
            (fun a b => a.commitDate ≠ b.commitDate) →
          ∀ tags2 : List RepoTag,
            [RepoTag.mk "a" 3, RepoTag.mk "b" 7, RepoTag.mk "c" 7].Perm tags2 →
            getLatestLocalTag tags2 = some t) :=
  latest_marker_max _ (by decide)

/-- C8 counterexample: on a working copy whose committed recipe already
equals the new content, running the committer twice produces zero new
commits, not exactly one. -/
theorem commit_twice_counterexample :
    ((commitAndTag (commitAndTag c8State "FROM debian:20230612" "m" "2023-06-12" "t" false).1
        "FROM debian:20230612" "m" "2023-06-12" "t" false).1.commitCount
      = c8State.commitCount)
    ∧ ¬ ((commitAndTag (commitAndTag c8State "FROM debian:20230612" "m" "2023-06-12" "t" false).1
        "FROM debian:20230612" "m" "2023-06-12" "t" false).1.commitCount
      = c8State.commitCount + 1) :=
  ⟨by decide, by decide⟩

/-- C8 amended: running the committer twice with identical recipe
content creates exactly one commit when the content differs from the
committed state at the start and none otherwise, and after each of the
two calls the release tag exists locally and points at the current tip. -/
theorem commit_twice_amended (s : GitState) (nc cm tn tm : String) (push : Bool)
    (hw : (s.tags.map (fun t => t.name)).Nodup) :
    (commitAndTag (commitAndTag s nc cm tn tm push).1 nc cm tn tm push).1.commitCount
        = (if nc = s.tipContent then s.commitCount else s.commitCount + 1)
    ∧ getTag (commitAndTag s nc cm tn tm push).1.tags tn
        = some ⟨tn, (commitAndTag s nc cm tn tm push).1.tip, tm⟩
    ∧ getTag (commitAndTag (commitAndTag s nc cm tn tm push).1 nc cm tn tm push).1.tags tn
        = some ⟨tn,
            (commitAndTag (commitAndTag s nc cm tn tm push).1 nc cm tn tm push).1.tip, tm⟩ := by
  obtain ⟨h1, h2, h3, h4⟩ := commitAndTag_spec s nc cm tn tm push hw
  obtain ⟨g1, g2, g3, g4⟩ :=
    commitAndTag_spec (commitAndTag s nc cm tn tm push).1 nc cm tn tm push h4
  refine ⟨?_, h3, g3⟩
  rw [g1, h2]
  simp [h1]

/-- Witness for C8 amended: one commit on a working copy whose content
differs, and the tag points at the tip after each call. -/
theorem commit_twice_amended_witness :
    (commitAndTag (commitAndTag c1State "FROM debian:20230612" "m" "2023-06-12" "t" false).1
        "FROM debian:20230612" "m" "2023-06-12" "t" false).1.commitCount
        = (if "FROM debian:20230612" = c1State.tipContent then c1State.commitCount
           else c1State.commitCount + 1)
    ∧ getTag (commitAndTag c1State "FROM debian:20230612" "m" "2023-06-12" "t" false).1.tags
          "2023-06-12"
        = some ⟨"2023-06-12",
            (commitAndTag c1State "FROM debian:20230612" "m" "2023-06-12" "t" false).1.tip, "t"⟩
    ∧ getTag (commitAndTag
          (commitAndTag c1State "FROM debian:20230612" "m" "2023-06-12" "t" false).1
          "FROM debian:20230612" "m" "2023-06-12" "t" false).1.tags "2023-06-12"
        = some ⟨"2023-06-12",
            (commitAndTag
              (commitAndTag c1State "FROM debian:20230612" "m" "2023-06-12" "t" false).1
              "FROM debian:20230612" "m" "2023-06-12" "t" false).1.tip, "t"⟩ :=
  commit_twice_amended c1State "FROM debian:20230612" "m" "2023-06-12" "t" false (by decide)
